import Mathlib

/-!
Shallow embedding of the DHT node engine declared in
`src/libtorrent/include/libtorrent/kademlia/node.hpp` (twister-core).

The header contains the data model (`peer_entry`, `torrent_entry`,
`dht_immutable_item`, `dht_mutable_item`), a few inline function bodies
(`operator<` on `peer_entry`, `count_peers`, `num_torrents`, `num_peers`),
and declarations of the remaining operations whose bodies live in the
corresponding `node.cpp`, which is not part of the given sources.  Where a
body is missing, the definition below is modelled from the specification
and its doc comment says so.

Machine integers (`int` counters, ports, addresses, `ptime`) are embedded
as `Nat`; sequence numbers (`int seq`) as `Int`.  `std::map` / `std::set`
are embedded as association lists / lists, which suffices for the claims
proved here (counting, lookup, update, filtering).
-/

namespace Twister

/-- A `tcp::endpoint`: an IP address together with a port.  Addresses are
embedded as naturals, which carry the total order used by the source. -/
structure Endpoint where
  address : Nat
  port : Nat
deriving DecidableEq, Repr

/-- `peer_entry` from node.hpp: endpoint, time added, seed flag. -/
structure PeerEntry where
  addr : Endpoint
  added : Nat
  seed : Bool
deriving DecidableEq, Repr

/-- `operator<(peer_entry const&, peer_entry const&)` from node.hpp:
`lhs.addr.address() == rhs.addr.address() ? lhs.addr.port() < rhs.addr.port()
 : lhs.addr.address() < rhs.addr.address()`. -/
def peerEntryLt (lhs rhs : PeerEntry) : Bool :=
  if lhs.addr.address = rhs.addr.address
  then decide (lhs.addr.port < rhs.addr.port)
  else decide (lhs.addr.address < rhs.addr.address)

/-- `torrent_entry` from node.hpp: display name and set of peers (the
`std::set` is embedded as a list; set-ness is not needed for counting). -/
structure TorrentEntry where
  name : String
  peers : List PeerEntry
deriving DecidableEq, Repr

/-- Content keys (`node_id` / `sha1_hash`), embedded as naturals. -/
abbrev Key := Nat

/-- The swarm directory `m_map : std::map<node_id, torrent_entry>`,
embedded as an association list. -/
abbrev SwarmDir := List (Key × TorrentEntry)

/-- `count_peers` functor from node.hpp: `count += t.second.peers.size()`. -/
def count_peers (count : Nat) (t : Key × TorrentEntry) : Nat :=
  count + t.2.peers.length

/-- `node_impl::num_torrents` from node.hpp: `return m_map.size();`. -/
def num_torrents (m : SwarmDir) : Nat := m.length

/-- `node_impl::num_peers` from node.hpp:
`int ret = 0; std::for_each(m_map.begin(), m_map.end(), count_peers(ret)); return ret;`. -/
def num_peers (m : SwarmDir) : Nat := m.foldl count_peers 0

/-- The rotating secret pair `int m_secret[2]` from node.hpp:
`m_secret[0]` is the current secret, `m_secret[1]` the previous one. -/
structure TokenState where
  secret0 : Nat
  secret1 : Nat
deriving DecidableEq, Repr

/-- A write token.  Modelled from the spec: the spec describes the token as
an opaque string derived from requester address, content key and a rotation
secret, regenerated identically by recomputation; it is embedded as the
tuple of those inputs. -/
structure WriteToken where
  tokAddress : Nat
  tokPort : Nat
  tokKey : Key
  tokSecret : Nat
deriving DecidableEq, Repr

/-- Recomputation of a token from an address, a content key and a secret. -/
def makeToken (addr : Endpoint) (infoHash : Key) (secret : Nat) : WriteToken :=
  ⟨addr.address, addr.port, infoHash, secret⟩

/-- Modelled from the spec: the body of `node_impl::generate_token` is in
node.cpp, which is not among the given sources.  Per the spec it is a pure
function of (address, content key, current secret). -/
def generate_token (s : TokenState) (addr : Endpoint) (infoHash : Key) : WriteToken :=
  makeToken addr infoHash s.secret0

/-- Modelled from the spec: the body of `node_impl::verify_token` is in
node.cpp, which is not among the given sources.  Per the spec it accepts if
the token matches recomputation under the current secret or the previous
secret, and returns false otherwise. -/
def verify_token (s : TokenState) (token : WriteToken) (infoHash : Key)
    (addr : Endpoint) : Bool :=
  (token == makeToken addr infoHash s.secret0) ||
    (token == makeToken addr infoHash s.secret1)

/-- Modelled from the spec: the body of `node_impl::new_write_key` is in
node.cpp, which is not among the given sources.  Per the spec the rotation
shifts the current secret into the previous slot and draws a fresh current
secret from a strong random source; the fresh draw is a parameter here. -/
def new_write_key (s : TokenState) (fresh : Nat) : TokenState :=
  ⟨fresh, s.secret0⟩

/-- Indices of the two bits a given endpoint sets in the 128-bit bloom
filter.  Modelled from the spec: the bloom filter hashes the announcing
IP; the concrete index derivation stands in for the hash, and none of the
proved properties depend on its shape. -/
def hashBits (addr : Endpoint) : List (Fin 128) :=
  [⟨addr.address % 128, Nat.mod_lt _ (by norm_num)⟩,
   ⟨(addr.address / 128 + addr.port) % 128, Nat.mod_lt _ (by norm_num)⟩]

/-- Bloom membership test: all of the address's bits are set. -/
def bloomFind (f : Finset (Fin 128)) (addr : Endpoint) : Bool :=
  (hashBits addr).all (fun i => decide (i ∈ f))

/-- Bloom insertion: set the address's bits. -/
def bloomSet (f : Finset (Fin 128)) (addr : Endpoint) : Finset (Fin 128) :=
  f ∪ (hashBits addr).toFinset

/-- `dht_immutable_item` from node.hpp: value buffer (with its recorded
size), 128-bit bloom filter of announcing IPs, last-seen time, announcer
count.  The bit-set of the bloom filter is embedded as a `Finset (Fin 128)`. -/
structure ImmutableItem where
  value : List Nat
  ips : Finset (Fin 128)
  last_seen : Nat
  num_announcers : Nat
  size : Nat
deriving DecidableEq

/-- `dht_immutable_item`'s default constructor from node.hpp:
`value(0), num_announcers(0), size(0)` with an empty bloom filter. -/
def ImmutableItem.fresh : ImmutableItem :=
  ⟨[], ∅, 0, 0, 0⟩

/-- Modelled from the spec: `mark_seen` records the announcer's address in
the bloom filter and increments `num_announcers` only if the bloom check
indicates a probable new member; it also refreshes `last_seen`.  The
corresponding node.cpp body is not among the given sources. -/
def mark_seen (it : ImmutableItem) (addr : Endpoint) (now : Nat) : ImmutableItem :=
  if bloomFind it.ips addr then
    { it with last_seen := now }
  else
    { it with ips := bloomSet it.ips addr,
              num_announcers := it.num_announcers + 1,
              last_seen := now }

/-- `dht_mutable_item` from node.hpp: extends the immutable item with a
signature, a sequence number and the RSA public key. -/
structure MutableItem extends ImmutableItem where
  sig : List Nat
  seq : Int
  key : List Nat
deriving DecidableEq

/-- Lookup in an association-list embedding of a `std::map` keyed by
`node_id`. -/
def tblLookup {α : Type} : List (Key × α) → Key → Option α
  | [], _ => none
  | (k', v) :: rest, k => if k' = k then some v else tblLookup rest k

/-- Insert-or-replace in an association-list embedding of a `std::map`. -/
def tblInsert {α : Type} : List (Key × α) → Key → α → List (Key × α)
  | [], k, v => [(k, v)]
  | (k', v') :: rest, k, v =>
    if k' = k then (k, v) :: rest else (k', v') :: tblInsert rest k v

/-- The mutable-item table `m_mutable_table`. -/
abbrev MutableTable := List (Key × MutableItem)

/-- The immutable-item table `m_immutable_table`. -/
abbrev ImmutableTable := List (Key × ImmutableItem)

/-- Outcome of a mutable put. -/
inductive PutResult where
  | ok
  | staleSequence
deriving DecidableEq, Repr

/-- Modelled from the spec: `put_mutable` on the mutable store (the body
behind `node_impl::putData` is in node.cpp, not among the given sources).
Per the spec it rejects with `StaleSequence` when an existing item at the
key has sequence number greater than or equal to the supplied one, and
otherwise replaces value, signature and sequence and marks the item as
seen. -/
def put_mutable (tbl : MutableTable) (k : Key) (v sg : List Nat) (sq : Int)
    (pk : List Nat) (addr : Endpoint) (now : Nat) : PutResult × MutableTable :=
  match tblLookup tbl k with
  | some it =>
      if sq ≤ it.seq then
        (.staleSequence, tbl)
      else
        (.ok, tblInsert tbl k
          { toImmutableItem :=
              mark_seen { it.toImmutableItem with value := v, size := v.length } addr now,
            sig := sg, seq := sq, key := it.key })
  | none =>
      (.ok, tblInsert tbl k
        { toImmutableItem :=
            mark_seen { ImmutableItem.fresh with value := v, size := v.length } addr now,
          sig := sg, seq := sq, key := pk })

/-- One mutable-put request: value, signature, sequence, public key,
announcer address, arrival time. -/
structure PutCall where
  val : List Nat
  sg : List Nat
  sq : Int
  pk : List Nat
  addr : Endpoint
  now : Nat

/-- Apply a sequence of mutable puts to the same key, left to right. -/
def applyPuts (tbl : MutableTable) (k : Key) (ps : List PutCall) : MutableTable :=
  ps.foldl (fun t p => (put_mutable t k p.val p.sg p.sq p.pk p.addr p.now).2) tbl

/-- A placeholder mutable item used to instantiate unused arguments. -/
def dummyMutableItem : MutableItem :=
  { toImmutableItem := ImmutableItem.fresh, sig := [], seq := 0, key := [] }

/-- First demonstration put: sequence number 5. -/
def demoPut1 : PutCall := ⟨[1], [2], 5, [9], ⟨1, 2⟩, 10⟩

/-- Second demonstration put: stale sequence number 3. -/
def demoPut2 : PutCall := ⟨[3], [4], 3, [9], ⟨1, 2⟩, 11⟩

/-- Apply a sequence of `mark_seen` calls (address, time) to an item. -/
def applyMarkSeen (it : ImmutableItem) (calls : List (Endpoint × Nat)) : ImmutableItem :=
  calls.foldl (fun i c => mark_seen i c.1 c.2) it

/-- Demonstration announce sequence: two distinct addresses, one repeated. -/
def demoCalls : List (Endpoint × Nat) := [(⟨1, 2⟩, 5), (⟨1, 2⟩, 6), (⟨3, 4⟩, 7)]

/-- Eviction candidate preorder.  Modelled from the spec: an entry precedes
another when it is less popular (lower `num_announcers`) or, at equal
popularity, at most as recently seen (`last_seen`); earlier entries are
evicted first. -/
def evictOrder (a b : Key × ImmutableItem) : Bool :=
  decide (a.2.num_announcers < b.2.num_announcers) ||
    (decide (a.2.num_announcers = b.2.num_announcers) &&
      decide (a.2.last_seen ≤ b.2.last_seen))

/-- Insert an entry into a list sorted by `evictOrder`. -/
def insertByEvictOrder (a : Key × ImmutableItem) : ImmutableTable → ImmutableTable
  | [] => [a]
  | b :: bs => if evictOrder a b then a :: b :: bs else b :: insertByEvictOrder a bs

/-- Insertion sort by `evictOrder`: least popular and oldest first. -/
def sortByEvictOrder (l : ImmutableTable) : ImmutableTable :=
  l.foldr insertByEvictOrder []

/-- Modelled from the spec: `evict_if_over_capacity` removes the least
popular entries, ties broken by oldest `last_seen`, until the table is back
at the configured bound (the node.cpp body is not among the given sources).
Returns the pair (retained entries, evicted entries). -/
def evict_if_over_capacity (bound : Nat) (tbl : ImmutableTable) :
    ImmutableTable × ImmutableTable :=
  let sorted := sortByEvictOrder tbl
  (sorted.drop (sorted.length - bound), sorted.take (sorted.length - bound))

/-- A sample item with the given popularity and last-seen time. -/
def demoItem (n ls : Nat) : ImmutableItem := ⟨[], ∅, ls, n, 0⟩

/-- A sample over-capacity table. -/
def demoTable : ImmutableTable :=
  [(1, demoItem 5 10), (2, demoItem 1 3), (3, demoItem 1 2)]

/-- Per-entry stale-peer filter: keep peers whose age is at most `maxAge`. -/
def pruneEntry (now maxAge : Nat) (kt : Key × TorrentEntry) : Key × TorrentEntry :=
  (kt.1, { kt.2 with
    peers := kt.2.peers.filter (fun p => decide (now - p.added ≤ maxAge)) })

/-- Modelled from the spec: `prune_stale(now, max_age)` removes from every
swarm entry the peers older than `max_age`; it runs on tick and its
node.cpp body is not among the given sources. -/
def prune_stale (now maxAge : Nat) (m : SwarmDir) : SwarmDir :=
  m.map (pruneEntry now maxAge)

/-- Modelled from the spec: `get(key)` on the immutable store is a pure
lookup returning the item, if any, together with the (unchanged) table; the
node.cpp body is not among the given sources. -/
def get_item (tbl : ImmutableTable) (k : Key) : Option ImmutableItem × ImmutableTable :=
  (tblLookup tbl k, tbl)

/-- The node's storage state: swarm directory, immutable table, mutable
table and the token secret pair, as held by `node_impl`. -/
structure NodeState where
  map : SwarmDir
  immutable_table : ImmutableTable
  mutable_table : MutableTable
  secret : TokenState
deriving DecidableEq

/-- Replies produced by the write-request handlers. -/
inductive Reply where
  | ack
  | authError
  | staleError
deriving DecidableEq, Repr

/-- Insert or refresh a peer in the swarm entry for a key; a missing entry
is created with an empty name, per the spec. -/
def announce_insert (m : SwarmDir) (k : Key) (p : PeerEntry) : SwarmDir :=
  match tblLookup m k with
  | some t =>
      tblInsert m k
        { t with peers := p :: t.peers.filter (fun q => decide (q.addr ≠ p.addr)) }
  | none => tblInsert m k { name := "", peers := [p] }

/-- Modelled from the spec: the announce_peer branch of
`node_impl::incoming_request` (body in node.cpp, not among the given
sources): verify the write token; on failure reply with an authorization
error and mutate nothing; on success record the announcing peer. -/
def handle_announce_peer (s : NodeState) (token : WriteToken) (infoHash : Key)
    (addr : Endpoint) (port : Nat) (sd : Bool) (now : Nat) : Reply × NodeState :=
  if verify_token s.secret token infoHash addr then
    (.ack, { s with map := announce_insert s.map infoHash ⟨⟨addr.address, port⟩, now, sd⟩ })
  else
    (.authError, s)

/-- Modelled from the spec: the put branch of `node_impl::incoming_request`
(body in node.cpp, not among the given sources): verify the write token; on
failure reply with an authorization error and mutate nothing; on success
delegate to the mutable store. -/
def handle_put (s : NodeState) (token : WriteToken) (k : Key) (addr : Endpoint)
    (v sg pk : List Nat) (sq : Int) (now : Nat) : Reply × NodeState :=
  if verify_token s.secret token k addr then
    match put_mutable s.mutable_table k v sg sq pk addr now with
    | (PutResult.ok, tbl) => (.ack, { s with mutable_table := tbl })
    | (PutResult.staleSequence, tbl) => (.staleError, { s with mutable_table := tbl })
  else
    (.authError, s)

/-- Return types of `node_impl` member functions exactly as declared in
node.hpp (the header declares `void tick();` and
`time_duration connection_timeout();`, the latter with the comment that the
returned time is the delay until `connection_timeout()` should be called
again). -/
def memberReturnType : String → Option String
  | "tick" => some "void"
  | "refresh" => some "void"
  | "bootstrap" => some "void"
  | "add_router_node" => some "void"
  | "unreachable" => some "void"
  | "incoming" => some "void"
  | "num_torrents" => some "int"
  | "num_peers" => some "int"
  | "announce" => some "void"
  | "putData" => some "void"
  | "getData" => some "void"
  | "verify_token" => some "bool"
  | "generate_token" => some "std::string"
  | "connection_timeout" => some "time_duration"
  | "new_write_key" => some "void"
  | "add_node" => some "void"
  | _ => none

lemma num_peers_foldl_acc (m : SwarmDir) (acc : Nat) :
    m.foldl count_peers acc = acc + (m.map (fun t => t.2.peers.length)).sum := by
  induction m generalizing acc with
  | nil => simp
  | cons hd tl ih =>
    simp only [List.foldl_cons, List.map_cons, List.sum_cons, ih, count_peers]
    omega

/-- Claim C10: `num_torrents` returns the number of swarm (torrent) entries
and `num_peers` returns the sum over all swarm entries of the size of their
peer sets; both are pure (`const`) accessors of the directory. -/
theorem num_torrents_num_peers_correct (m : SwarmDir) :
    num_torrents m = m.length ∧
    num_peers m = (m.map (fun t => t.2.peers.length)).sum := by
  refine ⟨rfl, ?_⟩
  simpa using num_peers_foldl_acc m 0

lemma peerEntryLt_iff (a b : PeerEntry) :
    peerEntryLt a b = true ↔
      (a.addr.address < b.addr.address ∨
        (a.addr.address = b.addr.address ∧ a.addr.port < b.addr.port)) := by
  unfold peerEntryLt
  by_cases h : a.addr.address = b.addr.address <;> simp [h]

lemma peerEntryLt_asymm_eq (a b : PeerEntry) :
    (peerEntryLt a b = false ∧ peerEntryLt b a = false) ↔
      (a.addr.address = b.addr.address ∧ a.addr.port = b.addr.port) := by
  unfold peerEntryLt
  by_cases h : a.addr.address = b.addr.address
  · simp [h]
    omega
  · have h' : ¬ b.addr.address = a.addr.address := fun hh => h hh.symm
    simp [h, h']
    omega

/-- Claim C7: `peer_entry` ordering is by IP address then port: `a < b` iff
`(a.address, a.port)` precedes `(b.address, b.port)` lexicographically; the
comparison is a strict weak ordering (irreflexive, transitive, with
transitive incomparability), and two entries with equal address and port
are mutual non-predecessors (duplicates) regardless of `added` and `seed`. -/
theorem peer_entry_lt_spec (a b c d : PeerEntry) :
    (peerEntryLt a b = true ↔
      (a.addr.address < b.addr.address ∨
        (a.addr.address = b.addr.address ∧ a.addr.port < b.addr.port))) ∧
    peerEntryLt a a = false ∧
    (peerEntryLt a b = true → peerEntryLt b c = true → peerEntryLt a c = true) ∧
    ((peerEntryLt a b = false ∧ peerEntryLt b a = false) ↔
      (a.addr.address = b.addr.address ∧ a.addr.port = b.addr.port)) ∧
    ((peerEntryLt a b = false ∧ peerEntryLt b a = false) →
      (peerEntryLt b d = false ∧ peerEntryLt d b = false) →
      (peerEntryLt a d = false ∧ peerEntryLt d a = false)) ∧
    (a.addr = b.addr → peerEntryLt a b = false ∧ peerEntryLt b a = false) := by
  refine ⟨peerEntryLt_iff a b, ?_, ?_, peerEntryLt_asymm_eq a b, ?_, ?_⟩
  · simp [peerEntryLt]
  · intro h1 h2
    rw [peerEntryLt_iff] at h1 h2 ⊢
    omega
  · intro h1 h2
    rw [peerEntryLt_asymm_eq] at h1 h2 ⊢
    exact ⟨h1.1.trans h2.1, h1.2.trans h2.2⟩
  · intro h
    exact (peerEntryLt_asymm_eq a b).mpr ⟨by rw [h], by rw [h]⟩

/-- Witness for C7: the transitivity component applied at concrete entries. -/
theorem peer_entry_lt_spec_witness :
    peerEntryLt ⟨⟨1, 5⟩, 0, false⟩ ⟨⟨1, 7⟩, 3, true⟩ = true ∧
    peerEntryLt ⟨⟨1, 7⟩, 3, true⟩ ⟨⟨2, 1⟩, 9, false⟩ = true ∧
    peerEntryLt ⟨⟨1, 5⟩, 0, false⟩ ⟨⟨2, 1⟩, 9, false⟩ = true :=
  ⟨by decide, by decide,
    (peer_entry_lt_spec ⟨⟨1, 5⟩, 0, false⟩ ⟨⟨1, 7⟩, 3, true⟩ ⟨⟨2, 1⟩, 9, false⟩
      ⟨⟨0, 0⟩, 0, false⟩).2.2.1 (by decide) (by decide)⟩

/-- Claim C1: `verify_token` accepts exactly the tokens that match
recomputation under the current or the previous secret (and, being a total
boolean function, never throws); a token generated under the current state
is still valid after one `new_write_key` rotation, and invalid after two
rotations whose freshly drawn secrets differ from the original one. -/
theorem verify_token_sliding_window (s : TokenState) (addr : Endpoint)
    (infoHash : Key) (t : WriteToken) (f1 f2 : Nat) :
    (verify_token s t infoHash addr = true ↔
      (t = makeToken addr infoHash s.secret0 ∨ t = makeToken addr infoHash s.secret1)) ∧
    verify_token (new_write_key s f1) (generate_token s addr infoHash) infoHash addr = true ∧
    (f1 ≠ s.secret0 → f2 ≠ s.secret0 →
      verify_token (new_write_key (new_write_key s f1) f2)
        (generate_token s addr infoHash) infoHash addr = false) := by
  refine ⟨?_, ?_, ?_⟩
  · simp [verify_token]
  · simp [verify_token, new_write_key, generate_token]
  · intro h1 h2
    simp only [verify_token, new_write_key, generate_token, makeToken,
      Bool.or_eq_false_iff, beq_eq_false_iff_ne, ne_eq, WriteToken.mk.injEq]
    exact ⟨fun h => h2 h.2.2.2.symm, fun h => h1 h.2.2.2.symm⟩

/-- Witness for C1: concrete secrets 10/11, fresh draws 12 and 13, address
(1,2), key 7; after two rotations the old token is rejected. -/
theorem verify_token_sliding_window_witness :
    (12 : Nat) ≠ (10 : Nat) ∧ (13 : Nat) ≠ (10 : Nat) ∧
    verify_token (new_write_key (new_write_key ⟨10, 11⟩ 12) 13)
      (generate_token ⟨10, 11⟩ ⟨1, 2⟩ 7) 7 ⟨1, 2⟩ = false :=
  ⟨by decide, by decide,
    (verify_token_sliding_window ⟨10, 11⟩ ⟨1, 2⟩ 7
      (generate_token ⟨10, 11⟩ ⟨1, 2⟩ 7) 12 13).2.2 (by decide) (by decide)⟩

lemma mark_seen_value (it : ImmutableItem) (a : Endpoint) (n : Nat) :
    (mark_seen it a n).value = it.value := by
  unfold mark_seen; split <;> rfl

lemma tblLookup_tblInsert_self {α : Type} (tbl : List (Key × α)) (k : Key) (v : α) :
    tblLookup (tblInsert tbl k v) k = some v := by
  induction tbl with
  | nil => simp [tblInsert, tblLookup]
  | cons hd tl ih =>
    obtain ⟨k', v'⟩ := hd
    by_cases h : k' = k <;> simp [tblInsert, tblLookup, h, ih]

lemma applyPuts_lookup (k : Key) (ps : List PutCall) (tbl : MutableTable)
    (it : MutableItem) (h : tblLookup tbl k = some it) :
    ∃ it2, tblLookup (applyPuts tbl k ps) k = some it2 ∧
      it.seq ≤ it2.seq ∧
      (∀ p ∈ ps, p.sq ≤ it2.seq) ∧
      ((it2.value = it.value ∧ it2.sig = it.sig ∧ it2.seq = it.seq) ∨
        ∃ p ∈ ps, it2.value = p.val ∧ it2.sig = p.sg ∧ it2.seq = p.sq) := by
  induction ps generalizing tbl it with
  | nil =>
    exact ⟨it, by simpa [applyPuts] using h, le_refl _, by simp,
      Or.inl ⟨rfl, rfl, rfl⟩⟩
  | cons p rest ih =>
    have happ : applyPuts tbl k (p :: rest) =
        applyPuts (put_mutable tbl k p.val p.sg p.sq p.pk p.addr p.now).2 k rest := rfl
    by_cases hle : p.sq ≤ it.seq
    · have hstep : (put_mutable tbl k p.val p.sg p.sq p.pk p.addr p.now).2 = tbl := by
        simp [put_mutable, h, hle]
      obtain ⟨it2, h1, h2, h3, h4⟩ := ih tbl it h
      refine ⟨it2, by rw [happ, hstep]; exact h1, h2, ?_, ?_⟩
      · intro q hq
        rcases List.mem_cons.mp hq with hq | hq
        · subst hq; exact le_trans hle h2
        · exact h3 q hq
      · rcases h4 with h4 | ⟨q, hq, hv⟩
        · exact Or.inl h4
        · exact Or.inr ⟨q, List.mem_cons_of_mem _ hq, hv⟩
    · push_neg at hle
      have hstep : (put_mutable tbl k p.val p.sg p.sq p.pk p.addr p.now).2 =
          tblInsert tbl k
            { toImmutableItem :=
                mark_seen { it.toImmutableItem with value := p.val, size := p.val.length }
                  p.addr p.now,
              sig := p.sg, seq := p.sq, key := it.key } := by
        simp [put_mutable, h, not_le.mpr hle]
      obtain ⟨it2, h1, h2, h3, h4⟩ := ih _ _ (tblLookup_tblInsert_self tbl k _)
      refine ⟨it2, by rw [happ, hstep]; exact h1, le_trans (le_of_lt hle) h2, ?_, ?_⟩
      · intro q hq
        rcases List.mem_cons.mp hq with hq | hq
        · subst hq; exact h2
        · exact h3 q hq
      · rcases h4 with ⟨hv, hg, hs⟩ | ⟨q, hq, hv⟩
        · refine Or.inr ⟨p, List.mem_cons_self _ _, ?_, hg, hs⟩
          simpa [mark_seen_value] using hv
        · exact Or.inr ⟨q, List.mem_cons_of_mem _ hq, hv⟩

/-- Claim C2: a mutable put whose sequence number is less than or equal to
the stored one is rejected with `StaleSequence` and leaves the table
unchanged; a put with a strictly greater sequence number replaces value,
signature and sequence; consequently, starting from a key with no entry,
any nonempty sequence of puts leaves stored exactly an item whose sequence
number dominates every submitted one and whose value/signature/sequence
come from a put attaining that maximum. -/
theorem put_mutable_spec (tbl : MutableTable) (k : Key) (it : MutableItem)
    (c : PutCall) (ps : List PutCall) :
    (tblLookup tbl k = some it → c.sq ≤ it.seq →
      put_mutable tbl k c.val c.sg c.sq c.pk c.addr c.now = (PutResult.staleSequence, tbl)) ∧
    (tblLookup tbl k = some it → it.seq < c.sq →
      ∃ it2, (put_mutable tbl k c.val c.sg c.sq c.pk c.addr c.now).1 = PutResult.ok ∧
        tblLookup (put_mutable tbl k c.val c.sg c.sq c.pk c.addr c.now).2 k = some it2 ∧
        it2.value = c.val ∧ it2.sig = c.sg ∧ it2.seq = c.sq) ∧
    (tblLookup tbl k = none → ps ≠ [] →
      ∃ it2, tblLookup (applyPuts tbl k ps) k = some it2 ∧
        (∀ p ∈ ps, p.sq ≤ it2.seq) ∧
        ∃ p ∈ ps, it2.value = p.val ∧ it2.sig = p.sg ∧ it2.seq = p.sq) := by
  refine ⟨?_, ?_, ?_⟩
  · intro h hle
    simp [put_mutable, h, hle]
  · intro h hlt
    have hstep2 : put_mutable tbl k c.val c.sg c.sq c.pk c.addr c.now =
        (PutResult.ok, tblInsert tbl k
          { toImmutableItem :=
              mark_seen { it.toImmutableItem with value := c.val, size := c.val.length }
                c.addr c.now,
            sig := c.sg, seq := c.sq, key := it.key }) := by
      simp [put_mutable, h, not_le.mpr hlt]
    rw [hstep2]
    exact ⟨_, rfl, tblLookup_tblInsert_self tbl k _, by simp [mark_seen_value], rfl, rfl⟩
  · intro h hne
    cases ps with
    | nil => exact absurd rfl hne
    | cons c0 rest =>
      have hstep : (put_mutable tbl k c0.val c0.sg c0.sq c0.pk c0.addr c0.now).2 =
          tblInsert tbl k
            { toImmutableItem :=
                mark_seen { ImmutableItem.fresh with value := c0.val, size := c0.val.length }
                  c0.addr c0.now,
              sig := c0.sg, seq := c0.sq, key := c0.pk } := by
        simp [put_mutable, h]
      have happ : applyPuts tbl k (c0 :: rest) =
          applyPuts (put_mutable tbl k c0.val c0.sg c0.sq c0.pk c0.addr c0.now).2 k rest := rfl
      obtain ⟨it2, h1, h2, h3, h4⟩ :=
        applyPuts_lookup k rest _ _ (hstep ▸ tblLookup_tblInsert_self tbl k _)
      refine ⟨it2, by rw [happ]; exact h1, ?_, ?_⟩
      · intro q hq
        rcases List.mem_cons.mp hq with hq | hq
        · subst hq; exact h2
        · exact h3 q hq
      · rcases h4 with ⟨hv, hg, hs⟩ | ⟨q, hq, hv⟩
        · refine ⟨c0, List.mem_cons_self _ _, ?_, hg, hs⟩
          simpa [mark_seen_value] using hv
        · exact ⟨q, List.mem_cons_of_mem _ hq, hv⟩

/-- Witness for C2: two puts to a fresh key with sequence numbers 5 then 3;
the stored item dominates both and carries data from a maximal put. -/
theorem put_mutable_spec_witness :
    ∃ it2, tblLookup (applyPuts [] 0 [demoPut1, demoPut2]) 0 = some it2 ∧
      (∀ p ∈ [demoPut1, demoPut2], p.sq ≤ it2.seq) ∧
      ∃ p ∈ [demoPut1, demoPut2], it2.value = p.val ∧ it2.sig = p.sg ∧ it2.seq = p.sq :=
  (put_mutable_spec [] 0 dummyMutableItem demoPut1 [demoPut1, demoPut2]).2.2
    rfl (List.cons_ne_nil _ _)

lemma mark_seen_num_mono (it : ImmutableItem) (a : Endpoint) (n : Nat) :
    it.num_announcers ≤ (mark_seen it a n).num_announcers := by
  unfold mark_seen; split <;> simp [Nat.le_succ]

lemma mark_seen_ips_mono (it : ImmutableItem) (a : Endpoint) (n : Nat) :
    it.ips ⊆ (mark_seen it a n).ips := by
  unfold mark_seen; split
  · exact Finset.Subset.refl _
  · exact Finset.subset_union_left

lemma bloomFind_mono {f f2 : Finset (Fin 128)} (a : Endpoint) (h : f ⊆ f2)
    (hf : bloomFind f a = true) : bloomFind f2 a = true := by
  simp only [bloomFind, List.all_eq_true, decide_eq_true_eq] at hf ⊢
  exact fun i hi => h (hf i hi)

lemma bloomFind_bloomSet_self (f : Finset (Fin 128)) (a : Endpoint) :
    bloomFind (bloomSet f a) a = true := by
  simp only [bloomFind, bloomSet, List.all_eq_true, decide_eq_true_eq]
  exact fun i hi => Finset.mem_union_right _ (List.mem_toFinset.mpr hi)

lemma applyMarkSeen_num_mono (calls : List (Endpoint × Nat)) (it : ImmutableItem) :
    it.num_announcers ≤ (applyMarkSeen it calls).num_announcers := by
  induction calls generalizing it with
  | nil => exact le_refl _
  | cons c rest ih =>
    exact le_trans (mark_seen_num_mono it c.1 c.2) (ih (mark_seen it c.1 c.2))

lemma applyMarkSeen_ips_mono (calls : List (Endpoint × Nat)) (it : ImmutableItem) :
    it.ips ⊆ (applyMarkSeen it calls).ips := by
  induction calls generalizing it with
  | nil => exact Finset.Subset.refl _
  | cons c rest ih =>
    exact Finset.Subset.trans (mark_seen_ips_mono it c.1 c.2) (ih (mark_seen it c.1 c.2))

lemma applyMarkSeen_bound (calls : List (Endpoint × Nat)) (it : ImmutableItem)
    (S : Finset Endpoint) (hS : ∀ a ∈ S, bloomFind it.ips a = true)
    (hn : it.num_announcers ≤ S.card) :
    (applyMarkSeen it calls).num_announcers ≤ (S ∪ (calls.map Prod.fst).toFinset).card := by
  induction calls generalizing it S with
  | nil => simpa using hn
  | cons c rest ih =>
    obtain ⟨a, t⟩ := c
    have hstep : applyMarkSeen it ((a, t) :: rest) = applyMarkSeen (mark_seen it a t) rest := rfl
    have hcard : S ∪ (((a, t) :: rest).map Prod.fst).toFinset =
        insert a S ∪ (rest.map Prod.fst).toFinset := by
      simp [Finset.union_insert, Finset.insert_union]
    rw [hstep, hcard]
    by_cases hfind : bloomFind it.ips a = true
    · have hit : mark_seen it a t = { it with last_seen := t } := by
        simp [mark_seen, hfind]
      apply ih
      · intro b hb
        rcases Finset.mem_insert.mp hb with hb | hb
        · subst hb; rw [hit]; exact hfind
        · rw [hit]; exact hS b hb
      · rw [hit]
        exact le_trans hn (Finset.card_le_card (Finset.subset_insert a S))
    · have hfind2 : bloomFind it.ips a = false := by simpa using hfind
      have hit : mark_seen it a t =
          { it with ips := bloomSet it.ips a,
                    num_announcers := it.num_announcers + 1, last_seen := t } := by
        simp [mark_seen, hfind2]
      have hanotin : a ∉ S := fun ha => hfind (hS a ha)
      apply ih
      · intro b hb
        rcases Finset.mem_insert.mp hb with hb | hb
        · rw [hit, hb]; exact bloomFind_bloomSet_self it.ips a
        · rw [hit]
          exact bloomFind_mono b Finset.subset_union_left (hS b hb)
      · rw [hit]
        rw [Finset.card_insert_of_not_mem hanotin]
        exact Nat.succ_le_succ hn

/-- Claim C5: over any sequence of `mark_seen` calls, `num_announcers` is
monotonically non-decreasing and the bloom filter only accumulates; and
starting from a freshly constructed item, `num_announcers` never exceeds
the number of distinct announcer addresses, because the counter is
incremented only when the bloom check indicates a probable new member. -/
theorem mark_seen_bloom_spec (it : ImmutableItem) (calls : List (Endpoint × Nat)) :
    it.num_announcers ≤ (applyMarkSeen it calls).num_announcers ∧
    it.ips ⊆ (applyMarkSeen it calls).ips ∧
    (it.ips = ∅ → it.num_announcers = 0 →
      (applyMarkSeen it calls).num_announcers ≤ ((calls.map Prod.fst).toFinset).card) := by
  refine ⟨applyMarkSeen_num_mono calls it, applyMarkSeen_ips_mono calls it, ?_⟩
  intro hips hnum
  have h := applyMarkSeen_bound calls it ∅ (by simp) (by simp [hnum])
  simpa using h

/-- Witness for C5: three announces from two distinct addresses leave the
counter at most the distinct-address count. -/
theorem mark_seen_bloom_spec_witness :
    (applyMarkSeen ImmutableItem.fresh demoCalls).num_announcers ≤
      ((demoCalls.map Prod.fst).toFinset).card :=
  (mark_seen_bloom_spec ImmutableItem.fresh demoCalls).2.2 rfl rfl

lemma evictOrder_total (a b : Key × ImmutableItem) :
    evictOrder a b = true ∨ evictOrder b a = true := by
  simp only [evictOrder, Bool.or_eq_true, Bool.and_eq_true, decide_eq_true_eq]
  omega

lemma evictOrder_trans (a b c : Key × ImmutableItem) :
    evictOrder a b = true → evictOrder b c = true → evictOrder a c = true := by
  simp only [evictOrder, Bool.or_eq_true, Bool.and_eq_true, decide_eq_true_eq]
  omega

lemma insertByEvictOrder_perm (a : Key × ImmutableItem) (l : ImmutableTable) :
    (insertByEvictOrder a l).Perm (a :: l) := by
  induction l with
  | nil => exact List.Perm.refl _
  | cons b bs ih =>
    unfold insertByEvictOrder
    split
    · exact List.Perm.refl _
    · exact (ih.cons b).trans (List.Perm.swap a b bs)

lemma sortByEvictOrder_perm (l : ImmutableTable) : (sortByEvictOrder l).Perm l := by
  induction l with
  | nil => exact List.Perm.refl _
  | cons a as ih =>
    exact (insertByEvictOrder_perm a (sortByEvictOrder as)).trans (ih.cons a)

lemma pairwise_insertByEvictOrder (a : Key × ImmutableItem) (l : ImmutableTable)
    (h : l.Pairwise (fun x y => evictOrder x y = true)) :
    (insertByEvictOrder a l).Pairwise (fun x y => evictOrder x y = true) := by
  induction l with
  | nil => simp [insertByEvictOrder]
  | cons b bs ih =>
    rcases List.pairwise_cons.mp h with ⟨hb, hbs⟩
    by_cases hab : evictOrder a b = true
    · rw [show insertByEvictOrder a (b :: bs) = a :: b :: bs from by
        simp [insertByEvictOrder, hab]]
      refine List.pairwise_cons.mpr ⟨?_, h⟩
      intro x hx
      rcases List.mem_cons.mp hx with hx | hx
      · rw [hx]; exact hab
      · exact evictOrder_trans a b x hab (hb x hx)
    · rw [show insertByEvictOrder a (b :: bs) = b :: insertByEvictOrder a bs from by
        simp [insertByEvictOrder, hab]]
      refine List.pairwise_cons.mpr ⟨?_, ih hbs⟩
      intro x hx
      have hx2 := (insertByEvictOrder_perm a bs).mem_iff.mp hx
      rcases List.mem_cons.mp hx2 with hx2 | hx2
      · rw [hx2]
        rcases evictOrder_total a b with h1 | h1
        · exact absurd h1 hab
        · exact h1
      · exact hb x hx2

lemma pairwise_sortByEvictOrder (l : ImmutableTable) :
    (sortByEvictOrder l).Pairwise (fun x y => evictOrder x y = true) := by
  induction l with
  | nil => simp [sortByEvictOrder]
  | cons a as ih => exact pairwise_insertByEvictOrder a (sortByEvictOrder as) ih

/-- Claim C3: eviction brings the table back to at most the configured
bound (exactly the bound when it was exceeded), removes nothing else
(retained and evicted entries form a permutation of the input), and every
evicted entry is no better than any retained one: no retained entry is
strictly less popular than an evicted one, nor equally popular but strictly
older. -/
theorem evict_if_over_capacity_spec (bound : Nat) (tbl : ImmutableTable) :
    (evict_if_over_capacity bound tbl).1.length ≤ bound ∧
    (tbl.length > bound → (evict_if_over_capacity bound tbl).1.length = bound) ∧
    ((evict_if_over_capacity bound tbl).2 ++ (evict_if_over_capacity bound tbl).1).Perm tbl ∧
    (∀ e ∈ (evict_if_over_capacity bound tbl).2,
      ∀ r ∈ (evict_if_over_capacity bound tbl).1,
        ¬(r.2.num_announcers < e.2.num_announcers ∨
          (r.2.num_announcers = e.2.num_announcers ∧ r.2.last_seen < e.2.last_seen))) := by
  have hperm := sortByEvictOrder_perm tbl
  have hlen : (sortByEvictOrder tbl).length = tbl.length := hperm.length_eq
  have h1 : (evict_if_over_capacity bound tbl).1 =
      (sortByEvictOrder tbl).drop ((sortByEvictOrder tbl).length - bound) := rfl
  have h2 : (evict_if_over_capacity bound tbl).2 =
      (sortByEvictOrder tbl).take ((sortByEvictOrder tbl).length - bound) := rfl
  refine ⟨?_, ?_, ?_, ?_⟩
  · rw [h1, List.length_drop]
    omega
  · intro hgt
    rw [h1, List.length_drop]
    omega
  · rw [h1, h2, List.take_append_drop]
    exact hperm
  · intro e he r hr
    have hp := pairwise_sortByEvictOrder tbl
    rw [← List.take_append_drop ((sortByEvictOrder tbl).length - bound)
      (sortByEvictOrder tbl)] at hp
    have hrel := (List.pairwise_append.mp hp).2.2 e (h2 ▸ he) r (h1 ▸ hr)
    simp only [evictOrder, Bool.or_eq_true, Bool.and_eq_true, decide_eq_true_eq] at hrel
    omega

/-- Witness for C3: a three-entry table evicted down to a bound of one
retains exactly one entry. -/
theorem evict_if_over_capacity_spec_witness :
    (evict_if_over_capacity 1 demoTable).1.length = 1 :=
  (evict_if_over_capacity_spec 1 demoTable).2.1 (by decide)

lemma filter_idem (p : PeerEntry → Bool) (l : List PeerEntry) :
    (l.filter p).filter p = l.filter p := by
  induction l with
  | nil => rfl
  | cons a as ih =>
    by_cases h : p a <;> simp [List.filter_cons, h, ih]

lemma pruneEntry_idem (now maxAge : Nat) (kt : Key × TorrentEntry) :
    pruneEntry now maxAge (pruneEntry now maxAge kt) = pruneEntry now maxAge kt := by
  simp [pruneEntry, filter_idem]

/-- Claim C8: stale-peer pruning is idempotent: pruning twice with the same
current time and maximum age, with no intervening announces, leaves the
swarm directory exactly as pruning once does. -/
theorem prune_stale_idempotent (now maxAge : Nat) (m : SwarmDir) :
    prune_stale now maxAge (prune_stale now maxAge m) = prune_stale now maxAge m := by
  induction m with
  | nil => rfl
  | cons kt rest ih =>
    simp only [prune_stale, List.map_cons] at ih ⊢
    rw [pruneEntry_idem, ih]

/-- Claim C9: `get` is a read-only lookup: it returns exactly the stored
item for the key and leaves the table — hence every field of every stored
item, including `num_announcers`, the bloom filter and `last_seen` — fully
unchanged. -/
theorem get_item_readonly (tbl : ImmutableTable) (k : Key) :
    (get_item tbl k).1 = tblLookup tbl k ∧
    (get_item tbl k).2 = tbl ∧
    (∀ k2, tblLookup (get_item tbl k).2 k2 = tblLookup tbl k2) :=
  ⟨rfl, rfl, fun _ => rfl⟩

/-- Claim C4: an announce_peer or put request whose write token fails
verification is answered with an authorization error and performs no
mutation at all: the resulting node state (swarm directory, immutable
store, mutable store, secrets) is exactly the prior state. -/
theorem auth_failure_no_mutation (s : NodeState) (token : WriteToken) (k : Key)
    (addr : Endpoint) (port : Nat) (sd : Bool) (now : Nat) (v sg pk : List Nat)
    (sq : Int) :
    verify_token s.secret token k addr = false →
      handle_announce_peer s token k addr port sd now = (Reply.authError, s) ∧
      handle_put s token k addr v sg pk sq now = (Reply.authError, s) := by
  intro h
  constructor <;> simp [handle_announce_peer, handle_put, h]

/-- Witness for C4: a token minted under an unrelated secret is rejected on
a concrete empty node state, which the handler returns unchanged. -/
theorem auth_failure_no_mutation_witness :
    verify_token (⟨10, 11⟩ : TokenState) ⟨0, 0, 0, 99⟩ 7 ⟨1, 2⟩ = false ∧
    handle_announce_peer ⟨[], [], [], ⟨10, 11⟩⟩ ⟨0, 0, 0, 99⟩ 7 ⟨1, 2⟩ 5 false 0 =
      (Reply.authError, ⟨[], [], [], ⟨10, 11⟩⟩) :=
  ⟨by decide,
    (auth_failure_no_mutation ⟨[], [], [], ⟨10, 11⟩⟩ ⟨0, 0, 0, 99⟩ 7 ⟨1, 2⟩ 5 false 0
      [] [] [] 0 (by decide)).1⟩

/-- Counterexample to claim C6: node.hpp declares `void tick();`, so the
periodic maintenance entry point `tick()` does not return the duration
until its next invocation (it returns nothing at all). -/
theorem tick_return_type_counterexample :
    memberReturnType "tick" = some "void" ∧
    memberReturnType "tick" ≠ some "time_duration" :=
  ⟨rfl, by decide⟩

/-- Claim C6 (amended): `tick()` returns void; it is `connection_timeout()`
that returns the duration until it should next be invoked, per its
declaration and accompanying comment in node.hpp. -/
theorem connection_timeout_return_type :
    memberReturnType "tick" = some "void" ∧
    memberReturnType "connection_timeout" = some "time_duration" :=
  ⟨rfl, rfl⟩

end Twister
